import Mathlib

/-!
Verification of the pagination reconciliation engine of the `text-editor`
repository (ProseMirror pagination plugin).

The embedding models the document/edit collaborator at the interface the
plugin consumes (spec section 6): tree documents with ProseMirror position
arithmetic (a non-leaf node contributes an opening and a closing token, a
text node contributes one position per character), resolved positions,
`canJoin`/`canSplit` for the repository's schema (`doc` containing `page+`,
`page` containing `block+`, `paragraph` containing `inline*`, `text`),
position mapping through replace steps, and transactions as explicit
records of steps.

On top of that the file embeds, from `src/src/prosemirror/plugins/pagination.ts`:
the plugin state `apply` function, the reconciling `appendTransaction`, the
overflow `update` view function (first variant), the `PaginationView.update`
splitter with `traverseAncestors`/`getParent` origin tagging and the
`joinDeep` helper (second variant), and from `src/src/pagination.ts` the
page-removal `appendTransaction`.
-/

/-- JavaScript attribute values as they occur in node `attrs.origin`:
`undefined` (attribute absent, e.g. on `page`/`doc` nodes), `null`
(the schema default for `paragraph.attrs.origin`) and origin-tag strings,
identified by a number.  Distinguishing `undefined` from `null` matters:
JavaScript strict equality has `undefined === undefined` true but
`undefined === null` false. -/
inductive JSVal where
  | undef
  | null
  | str (s : Nat)
  deriving DecidableEq, Repr

/-- JavaScript strict equality (`===`) on `JSVal`. -/
def jsStrictEq : JSVal → JSVal → Bool
  | .undef, .undef => true
  | .null, .null => true
  | .str a, .str b => a == b
  | _, _ => false

/-- JavaScript truthiness of a `JSVal` (origin tags are non-empty strings,
hence truthy; `null` and `undefined` are falsy). -/
def jsTruthy : JSVal → Bool
  | .str _ => true
  | _ => false

/-- A ProseMirror node of the repository's schema: a text node of a given
number of characters, or an element node with a type name, an `origin`
attribute and children.  The document root is a `node "doc"`. -/
inductive PMNode where
  | text (len : Nat)
  | node (ty : String) (origin : JSVal) (children : List PMNode)
  deriving Repr

mutual
/-- ProseMirror `node.nodeSize`: a text node counts one position per
character, an element node adds an opening and a closing token around its
content. -/
def nodeSize : PMNode → Nat
  | .text len => len
  | .node _ _ cs => 2 + contentSize cs
/-- ProseMirror `fragment.size` of a children list. -/
def contentSize : List PMNode → Nat
  | [] => 0
  | c :: cs => nodeSize c + contentSize cs
end

/-- ProseMirror `node.content.size` (zero for text nodes). -/
def contentSizeOf : PMNode → Nat
  | .text _ => 0
  | .node _ _ cs => contentSize cs

/-- ProseMirror `node.type.name` (text nodes have type `text`). -/
def typeNameOf : PMNode → String
  | .text _ => "text"
  | .node ty _ _ => ty

/-- ProseMirror `node.isText`. -/
def isTextNode : PMNode → Bool
  | .text _ => true
  | .node _ _ _ => false

/-- ProseMirror `node.attrs.origin` (text nodes have no attrs: `undefined`). -/
def originOf : PMNode → JSVal
  | .text _ => .undef
  | .node _ og _ => og

/-- ProseMirror `node.childCount`. -/
def childCountOf : PMNode → Nat
  | .text _ => 0
  | .node _ _ cs => cs.length

/-- ProseMirror `node.firstChild` (null when empty). -/
def firstChildOf : PMNode → Option PMNode
  | .text _ => none
  | .node _ _ cs => cs.head?

/-- ProseMirror `node.lastChild` (null when empty). -/
def lastChildOf : PMNode → Option PMNode
  | .text _ => none
  | .node _ _ cs => cs.getLast?

/-- ProseMirror `node.child(i)`. -/
def childAt : PMNode → Nat → Option PMNode
  | .text _, _ => none
  | .node _ _ cs, i => cs[i]?

/-- A resolved position (ProseMirror `ResolvedPos`), relative to one
document: the depth, the node whose content directly contains the position,
the offset into that parent's content, the child index at the position, the
nodes ending/starting there (cut text nodes when the position falls inside
a text node, as in ProseMirror's `nodeBefore`/`nodeAfter`), whether the
position falls strictly inside a text node, and the chain of ancestors
above the parent together with the child index the position descends
through (outermost first). -/
structure RPos where
  depth : Nat
  parent : PMNode
  parentOffset : Nat
  index : Nat
  nodeBefore : Option PMNode
  nodeAfter : Option PMNode
  midText : Bool
  path : List (PMNode × Nat)

mutual
/-- Resolution of offset `off` inside the content of node `n` at the given
depth; `path` accumulates the ancestors descended through. -/
def resolveGo (n : PMNode) (off : Nat) (depth : Nat) (path : List (PMNode × Nat)) : RPos :=
  match n with
  | .text _ => ⟨depth, n, off, 0, none, none, false, path⟩
  | .node _ _ cs => resolveScan n cs off off 0 none depth path
/-- Scan of a children list: `o` is the offset remaining ahead, `parentOff`
the full offset into `parent`, `i` the current child index, `prev` the
previous child. -/
def resolveScan (parent : PMNode) (cs : List PMNode) (parentOff o i : Nat)
    (prev : Option PMNode) (depth : Nat) (path : List (PMNode × Nat)) : RPos :=
  match cs with
  | [] => ⟨depth, parent, parentOff, i, prev, none, false, path⟩
  | c :: rest =>
    if o = 0 then ⟨depth, parent, parentOff, i, prev, some c, false, path⟩
    else
      match c with
      | .text len =>
        if o < len then
          ⟨depth, parent, parentOff, i, some (.text o), some (.text (len - o)), true, path⟩
        else resolveScan parent rest parentOff (o - len) (i + 1) (some c) depth path
      | .node cty cog ccs =>
        if o < 2 + contentSize ccs then
          resolveGo (.node cty cog ccs) (o - 1) (depth + 1) (path ++ [(parent, i)])
        else resolveScan parent rest parentOff (o - (2 + contentSize ccs)) (i + 1) (some c) depth path
end

/-- ProseMirror `doc.resolve(pos)`. -/
def resolvePos (doc : PMNode) (p : Nat) : RPos :=
  resolveGo doc p 0 []

mutual
/-- Descent step of ProseMirror `doc.nodeAt(pos)` into an element node. -/
def nodeAtInner : PMNode → Nat → Option PMNode
  | .text _, _ => none
  | .node _ _ ccs, p => nodeAtContent ccs p
/-- ProseMirror `doc.nodeAt(pos)`: descends until a child starts exactly at
the position or the position falls inside a text node. -/
def nodeAtContent : List PMNode → Nat → Option PMNode
  | [], _ => none
  | c :: cs, p =>
    if p < nodeSize c then
      if p = 0 then some c
      else
        match c with
        | .text _ => some c
        | .node _ _ _ => nodeAtInner c (p - 1)
    else nodeAtContent cs (p - nodeSize c)
end

/-- ProseMirror `doc.nodeAt(pos)` on a document node. -/
def nodeAtPos (doc : PMNode) (p : Nat) : Option PMNode :=
  match doc with
  | .text _ => none
  | .node _ _ cs => nodeAtContent cs p

/-- Minimum number of children the repository's schema requires of a node
type: `doc` holds `page+`, `page` holds `block+`, `paragraph` holds
`inline*`. -/
def minChildren : String → Nat
  | "doc" => 1
  | "page" => 1
  | _ => 0

/-- ProseMirror `canJoin(doc, pos)` specialised to the repository's schema:
the nodes ending and starting at the position exist, are non-leaf nodes of
the same type (text nodes are leaves and never joinable), and the parent
remains valid with one child fewer. -/
def canJoin (doc : PMNode) (p : Nat) : Bool :=
  let rp := resolvePos doc p
  match rp.nodeBefore, rp.nodeAfter with
  | some (.node t1 _ _), some (.node t2 _ _) =>
    t1 == t2 && minChildren (typeNameOf rp.parent) ≤ childCountOf rp.parent - 1
  | _, _ => false

/-- Concatenation of two children lists merging a text seam, as
ProseMirror's replace machinery merges adjacent text nodes when two
textblocks are joined. -/
def mergeSeam : List PMNode → List PMNode → List PMNode
  | [], k2 => k2
  | [c], k2 =>
    match c, k2 with
    | .text a, .text b :: rest => .text (a + b) :: rest
    | _, _ => c :: k2
  | c :: rest, k2 => c :: mergeSeam rest k2

mutual
/-- Descent step of a join into an element node. -/
def joinInner : PMNode → Nat → Option PMNode
  | .text _, _ => none
  | .node ty og ccs, o => (joinContentAt ccs o).map (.node ty og ·)
/-- Effect on a children list of ProseMirror's join at content offset `o`
(the `ReplaceStep(pos-1, pos+1, Slice.empty, true)` emitted by `tr.join`):
the node ending and the node starting at the offset are merged into one
node keeping the first node's type and attributes. Returns `none` when the
offset is not a joinable boundary. -/
def joinContentAt : List PMNode → Nat → Option (List PMNode)
  | [], _ => none
  | c :: rest, o =>
    if o = 0 then none
    else if o < nodeSize c then (joinInner c (o - 1)).map (· :: rest)
    else if o = nodeSize c then
      match c, rest with
      | .node t1 og1 k1, .node _ _ k2 :: rest2 => some (.node t1 og1 (mergeSeam k1 k2) :: rest2)
      | _, _ => none
    else (joinContentAt rest (o - nodeSize c)).map (c :: ·)
end

/-- ProseMirror join applied to a document; identity when the position is
not a joinable boundary (all embedded call sites guard with `canJoin`). -/
def joinAt (doc : PMNode) (p : Nat) : PMNode :=
  match doc with
  | .text len => .text len
  | .node ty og cs =>
    match joinContentAt cs p with
    | some cs2 => .node ty og cs2
    | none => .node ty og cs

/-- ProseMirror `tr.join(pos, depth)` effect on the document: the depth-1
join at `pos`, then deeper joins at the inner boundary left one position
earlier at each level. -/
def joinAtDepth (doc : PMNode) (p : Nat) : Nat → PMNode
  | 0 => doc
  | d + 1 => joinAtDepth (joinAt doc p) (p - 1) d

mutual
/-- Descent step of a deletion into an element node. -/
def deleteInner : PMNode → Nat → Nat → PMNode
  | .text len, a, b => .text (len - (b - a))
  | .node ty og ccs, a, b => .node ty og (deleteInContent ccs a b)
/-- Effect on a children list of deleting the content range `[a, b)`
(ProseMirror `tr.replace(a, b)` with the empty slice). Only ranges that
stay inside one textblock are represented — the single place the plugin
deletes content removes one character — and other shapes are left to the
host edit collaborator (unchanged here). -/
def deleteInContent : List PMNode → Nat → Nat → List PMNode
  | [], _, _ => []
  | c :: rest, a, b =>
    if b ≤ a then c :: rest
    else if nodeSize c ≤ a then c :: deleteInContent rest (a - nodeSize c) (b - nodeSize c)
    else if a = 0 ∧ nodeSize c ≤ b then deleteInContent rest 0 (b - nodeSize c)
    else if b ≤ nodeSize c then
      match c with
      | .text len =>
        if len - (b - a) = 0 then rest else .text (len - (b - a)) :: rest
      | .node _ _ _ =>
        if 1 ≤ a ∧ b ≤ nodeSize c - 1 then deleteInner c (a - 1) (b - 1) :: rest
        else c :: rest
    else c :: rest
end

/-- Deletion of `[a, b)` applied to a document. -/
def deleteAt (doc : PMNode) (a b : Nat) : PMNode :=
  match doc with
  | .text len => .text len
  | .node ty og cs => .node ty og (deleteInContent cs a b)

mutual
/-- Descent step of `setOriginAt` into an element node. -/
def setOriginInner : PMNode → Nat → JSVal → PMNode
  | .text len, _, _ => .text len
  | .node ty og ccs, p, v => .node ty og (setOriginContent ccs p v)
/-- Effect of ProseMirror `tr.setNodeMarkup(pos, node.type, {...attrs,
origin})` on a children list: replaces the `origin` attribute of the node
starting at position `p`. -/
def setOriginContent : List PMNode → Nat → JSVal → List PMNode
  | [], _, _ => []
  | c :: rest, p, v =>
    if p = 0 then
      (match c with
       | .node ty _ ccs => .node ty v ccs
       | t => t) :: rest
    else if p < nodeSize c then
      (match c with
       | .text len => .text len
       | .node _ _ _ => setOriginInner c (p - 1) v) :: rest
    else c :: setOriginContent rest (p - nodeSize c) v
end

/-- The `origin` attribute update applied to a document. -/
def setOriginAt (doc : PMNode) (p : Nat) (v : JSVal) : PMNode :=
  match doc with
  | .text len => .text len
  | .node ty og cs => .node ty og (setOriginContent cs p v)

/-- A ProseMirror `StepMap` range: `del` positions starting at `start` are
replaced by `ins` positions. -/
structure SMap where
  start : Nat
  del : Nat
  ins : Nat
  deriving DecidableEq, Repr

/-- ProseMirror `StepMap.mapResult(pos).pos` with the default association
(`assoc = 1`): positions before the range are unchanged, positions after it
are shifted, the range start maps to itself when content was deleted, and
every other position of the range maps to the end of the inserted
content. -/
def mapThrough (m : SMap) (p : Nat) : Nat :=
  if p < m.start then p
  else if m.start + m.del < p then p + m.ins - m.del
  else if m.del = 0 then m.start + m.ins
  else if p = m.start then m.start
  else m.start + m.ins

/-- The steps the plugin produces or inspects.  `replace`, `split` and
`join` are `ReplaceStep`s in ProseMirror (`tr.split(pos, depth)` inserts
`2*depth` tokens at `pos`; `tr.join(pos, depth)` removes the `2*depth`
tokens of `[pos-depth, pos+depth)`); `markup` is the `ReplaceAroundStep`
emitted by `setNodeMarkup`, which is not a `ReplaceStep` and maps every
position to itself. -/
inductive Step where
  | replace (f t ins : Nat)
  | split (pos depth : Nat)
  | join (pos depth : Nat)
  | markup (pos : Nat) (origin : JSVal)
  deriving DecidableEq, Repr

/-- JavaScript `step instanceof ReplaceStep`. -/
def Step.isReplace : Step → Bool
  | .replace _ _ _ => true
  | .split _ _ => true
  | .join _ _ => true
  | .markup _ _ => false

/-- The `StepMap` of a step. -/
def Step.smap : Step → SMap
  | .replace f t ins => ⟨f, t - f, ins⟩
  | .split p d => ⟨p, 0, 2 * d⟩
  | .join p d => ⟨p - d, 2 * d, 0⟩
  | .markup _ _ => ⟨0, 0, 0⟩

/-- The `from` field of the underlying `ReplaceStep`. -/
def Step.fromPos : Step → Nat
  | .replace f _ _ => f
  | .split p _ => p
  | .join p d => p - d
  | .markup p _ => p

/-- A transaction: the current document it has built, its steps, the
plugin meta (`getMeta(pluginKey)`), the `pointer` meta and the
`addToHistory` flag.  The document effect of a `split` step is not
modelled: no embedded code path reads the transaction's document after a
split (the post-split document always re-enters the plugin through the
host state, which the embedded functions take as an argument). -/
structure Tr where
  doc : PMNode
  steps : List Step
  meta : Option String
  pointer : Bool
  addToHistory : Option Bool
  deriving Repr

/-- ProseMirror `state.tr`: a fresh transaction on a document. -/
def mkTr (doc : PMNode) : Tr :=
  { doc := doc, steps := [], meta := none, pointer := false, addToHistory := none }

/-- ProseMirror `tr.mapping.mapResult(p).pos`: composition of the step
maps of all steps, in order. -/
def Tr.mapPos (tr : Tr) (p : Nat) : Nat :=
  tr.steps.foldl (fun q s => mapThrough s.smap q) p

/-- ProseMirror `tr.join(pos)` . -/
def Tr.joinOp (tr : Tr) (p : Nat) : Tr :=
  { tr with doc := joinAt tr.doc p, steps := tr.steps ++ [.join p 1] }

/-- ProseMirror `tr.join(pos, depth)`. -/
def Tr.joinDepthOp (tr : Tr) (p d : Nat) : Tr :=
  { tr with doc := joinAtDepth tr.doc p d, steps := tr.steps ++ [.join p d] }

/-- ProseMirror `tr.replace(a, b)` (deletion). -/
def Tr.replaceDel (tr : Tr) (a b : Nat) : Tr :=
  { tr with doc := deleteAt tr.doc a b, steps := tr.steps ++ [.replace a b 0] }

/-- ProseMirror `tr.split(pos, depth)`. -/
def Tr.splitOp (tr : Tr) (p d : Nat) : Tr :=
  { tr with steps := tr.steps ++ [.split p d] }

/-- ProseMirror `tr.setNodeMarkup(pos, node.type, {...node.attrs, origin})`. -/
def Tr.markupOp (tr : Tr) (p : Nat) (v : JSVal) : Tr :=
  { tr with doc := setOriginAt tr.doc p v, steps := tr.steps ++ [.markup p v] }

/-- ProseMirror `tr.setMeta(pluginKey, value)`. -/
def Tr.setMeta (tr : Tr) (s : String) : Tr :=
  { tr with meta := some s }

/-- ProseMirror `tr.setMeta('addToHistory', false)`. -/
def Tr.setNoHistory (tr : Tr) : Tr :=
  { tr with addToHistory := some false }

/-- A secondary ancestor-level boundary of a multi-depth split
(`interface Connection { to, from }` in the source; `from` is a reserved
word in Lean, so the fields are `fromPos`/`toPos`). -/
structure Connection where
  fromPos : Nat
  toPos : Nat
  deriving DecidableEq, Repr

/-- A tracked split boundary (`interface Split`). -/
structure Split where
  pos : Nat
  connections : List Connection
  deriving DecidableEq, Repr

/-- The plugin state (`class PaginationState`). -/
structure PaginationState where
  splits : List Split
  deriving DecidableEq, Repr

/-- Remapping of one split and its connections through a transaction
(`apply`, first map over `splits`). -/
def remapSplit (tr : Tr) (s : Split) : Split :=
  { pos := tr.mapPos s.pos,
    connections := s.connections.map fun c => ⟨tr.mapPos c.fromPos, tr.mapPos c.toPos⟩ }

/-- Connection filtering of `apply` (second map over `splits`): a
connection is kept only while its `to` still sits at offset 0 of its
parent.  The source also resolves `connection.from` but only uses the
resolution of `connection.to`. -/
def filterConnections (newDoc : PMNode) (s : Split) : Split :=
  { pos := s.pos,
    connections := s.connections.filter fun c =>
      (resolvePos newDoc c.toPos).parentOffset == 0 }

/-- The `for (let i = 1; i < depth + 1; i++)` loop of `apply`'s split
branch, as a countdown on the remaining iterations: starting at level `i`,
record a connection `{from: splitPos - i, to: splitPos + i}` for every
level whose `nodeAfter` exists and is not a text node. -/
def splitConnsGo (newDoc : PMNode) (splitPos i : Nat) : Nat → List Connection
  | 0 => []
  | rem + 1 =>
    (match (resolvePos newDoc (splitPos + i)).nodeAfter with
     | some n => if isTextNode n then [] else [⟨splitPos - i, splitPos + i⟩]
     | none => []) ++ splitConnsGo newDoc splitPos (i + 1) rem

/-- The connections recorded for a new split of the given depth. -/
def splitConnections (newDoc : PMNode) (splitPos depth : Nat) : List Connection :=
  splitConnsGo newDoc splitPos 1 depth

/-- The plugin state transition (`apply` of the pagination plugin, first
variant): a transaction tagged `join` resets the state; otherwise every
split and connection is remapped through the transaction, stale
connections (whose `to` left offset 0 of its parent) are dropped, and a
transaction tagged `split` appends one new `Split` recovered from its
first step, with one connection per non-text ancestor level.  `newDoc` is
the post-transaction document (`state.doc`). -/
def applyPag (tr : Tr) (value : PaginationState) (newDoc : PMNode) : PaginationState :=
  if tr.meta = some "join" then ⟨[]⟩
  else
    let splits := value.splits.map (remapSplit tr)
    let splits := splits.map (filterConnections newDoc)
    let splits :=
      if tr.meta = some "split" then
        match tr.steps with
        | step :: _ =>
          let mapped := tr.mapPos step.fromPos
          let d := (resolvePos newDoc mapped).depth
          splits ++ [⟨mapped - d, splitConnections newDoc (mapped - d) d⟩]
        | [] => splits
      else splits
    ⟨splits⟩

/-- The `ReplaceStep`s collected across a transaction list
(`appendTransaction`, first variant). -/
def replaceStepsOf (trs : List Tr) : List Step :=
  trs.foldl (fun all t => all ++ t.steps.filter Step.isReplace) []

/-- The inner `split.connections.forEach` of `appendTransaction` (first
variant): join a connection whose mapped endpoints coincide, provided the
join is legal and both neighbouring nodes are non-empty. -/
def processConnection (t : Tr) (c : Connection) : Tr :=
  let f := t.mapPos c.fromPos
  let toP := t.mapPos c.toPos
  if f = toP ∧ canJoin t.doc toP then
    let rp := resolvePos t.doc toP
    match rp.nodeAfter, rp.nodeBefore with
    | some na, some nb =>
      if contentSizeOf na ≠ 0 ∧ contentSizeOf nb ≠ 0 then t.joinOp toP else t
    | _, _ => t
  else t

/-- The outer `splits.forEach` body of `appendTransaction` (first
variant): map the split position through the transaction built so far,
join it when legal, and then process its connections. -/
def processSplit (t : Tr) (s : Split) : Tr :=
  let splitPos := t.mapPos s.pos
  if canJoin t.doc splitPos then
    s.connections.foldl processConnection (t.joinOp splitPos)
  else t

/-- Body of `appendTransaction` (first variant) after the single-internal
transaction guard: collect `ReplaceStep`s, return nothing when there are
none, otherwise build a transaction on the current document — tagged
`join` and excluded from history when any splits are tracked — and attempt
to join every tracked split. -/
def appendTransactionRest (trs : List Tr) (doc : PMNode) (st : PaginationState) : Option Tr :=
  if (replaceStepsOf trs).isEmpty then none
  else
    let t := mkTr doc
    let t := if st.splits.length ≠ 0 then (t.setMeta "join").setNoHistory else t
    some (st.splits.foldl processSplit t)

/-- The reconciling `appendTransaction` of the pagination plugin (first
variant): a lone transaction that is internally tagged or pointer-only is
ignored; otherwise the reconciliation body runs on the post-edit document
and the current plugin state. -/
def appendTransactionMain (trs : List Tr) (doc : PMNode) (st : PaginationState) : Option Tr :=
  match trs with
  | [tr] =>
    if tr.meta.isSome || tr.pointer then none
    else appendTransactionRest trs doc st
  | _ => appendTransactionRest trs doc st

/-- ProseMirror `canSplit(doc, pos, depth)` specialised to the
repository's schema: the depth must not exceed the resolved depth, and at
each of the innermost `depth` levels both halves of the divided node must
keep the minimum number of children its type requires (an empty `page` or
`doc` half is invalid, an empty `paragraph` half is fine).  At the level
containing the position a mid-text split leaves a text fragment on each
side. -/
def canSplit (doc : PMNode) (p : Nat) (depth : Nat) : Bool :=
  let rp := resolvePos doc p
  if depth = 0 then true
  else if rp.depth < depth then false
  else
    let leftIn := rp.index + (if rp.midText then 1 else 0)
    let rightIn := childCountOf rp.parent - rp.index
    (decide (minChildren (typeNameOf rp.parent) ≤ leftIn) &&
     decide (minChildren (typeNameOf rp.parent) ≤ rightIn)) &&
    (rp.path.drop (rp.path.length - (depth - 1))).all fun ni =>
      decide (minChildren (typeNameOf ni.1) ≤ ni.2 + 1) &&
      decide (minChildren (typeNameOf ni.1) ≤ childCountOf ni.1 - ni.2)

/-- The empty-node-avoiding position adjustment of the first variant's
`update` (lines 276–287): one step out when the resolved position sits at
the very start of its parent's content, else one step out when it sits at
the very end, else unchanged. -/
def adjustPos (doc : PMNode) (p : Nat) : Nat :=
  let rp := resolvePos doc p
  if rp.parentOffset = 0 then p - 1
  else if rp.parentOffset = contentSizeOf rp.parent then p + 1
  else p

/-- The per-page body of the first variant's view `update`: for an
overflowing page, the coordinate-to-position query result (`posAtCoords`)
is consulted — `null` makes the code throw — the position is adjusted away
from node edges, and when `canSplit` holds a transaction tagged `split`
and excluded from history carrying the single split step is dispatched. -/
def updatePage (doc : PMNode) (overflow : Bool) (posAtCoords : Option Nat) :
    Except String (Option Tr) :=
  if overflow then
    match posAtCoords with
    | none => .error "Cannot find position at coords"
    | some p =>
      let ap := adjustPos doc p
      if canSplit doc ap (resolvePos doc ap).depth then
        .ok (some (((mkTr doc).setMeta "split").setNoHistory.splitOp ap (resolvePos doc ap).depth))
      else .ok none
  else .ok none

/-- The `pages.forEach` loop of the first variant's view `update`: each
page container is given by its overflow signal and the position the
rendering collaborator resolves for its boundary; a thrown error aborts
the whole loop. -/
def updateAll (doc : PMNode) : List (Bool × Option Nat) → Except String (List Tr)
  | [] => .ok []
  | (ov, pac) :: rest =>
    match updatePage doc ov pac with
    | .error e => .error e
    | .ok none => updateAll doc rest
    | .ok (some t) => (updateAll doc rest).map (t :: ·)

/-- The second variant's `getParent(doc, pos)`: the parent's own position
is `pos - parentOffset - 1`; at the top level (the JavaScript value is `0`
or `-1`) the document root at position 0 is returned.  `none` models the
`Position out of range` throw when `nodeAt` finds nothing. -/
def getParent (doc : PMNode) (pos : Nat) : Option (PMNode × Nat) :=
  let parentPos := pos - (resolvePos doc pos).parentOffset - 1
  if 0 < parentPos then
    match nodeAtPos doc parentPos with
    | some n => some (n, parentPos)
    | none => none
  else some (doc, 0)

/-- The second variant's `traverseAncestors` specialised to the
`PaginationView.update` callback: walk `getParent` upward while the parent
position is positive, giving each visited ancestor a `setNodeMarkup` step
that keeps its `origin` attribute when truthy and otherwise assigns the
next tag of the fresh-tag supply (`uuid()`), threading the supply index
`k`.  The walk is bounded by the starting position, which strictly
decreases at every step. -/
def tagAncestorsGo (doc : PMNode) (fresh : Nat → Nat) :
    Nat → Nat → Tr → Nat → Tr × Nat
  | 0, _, tr, k => (tr, k)
  | fuel + 1, pos, tr, k =>
    match getParent doc pos with
    | none => (tr, k)
    | some (pnode, ppos) =>
      if 0 < ppos then
        let ogv := originOf pnode
        if jsTruthy ogv then tagAncestorsGo doc fresh fuel ppos (tr.markupOp ppos ogv) k
        else tagAncestorsGo doc fresh fuel ppos (tr.markupOp ppos (.str (fresh k))) (k + 1)
      else (tr, k)

/-- The ancestor-tagging walk started from a position. -/
def tagAncestors (doc : PMNode) (pos : Nat) (tr : Tr) (fresh : Nat → Nat) : Tr × Nat :=
  tagAncestorsGo doc fresh pos pos tr 0

/-- The ancestor chain the tagging walk visits from a position: the
`getParent` iteration while the parent position stays positive, each
ancestor paired with its own position, innermost first; bounded like the
walk by the starting position, which strictly decreases at every step. -/
def getParentChain (doc : PMNode) : Nat → Nat → List (PMNode × Nat)
  | 0, _ => []
  | fuel + 1, pos =>
    match getParent doc pos with
    | none => []
    | some pp => if 0 < pp.2 then pp :: getParentChain doc fuel pp.2 else []

/-- The ancestor chain of a position. -/
def ancestorChain (doc : PMNode) (pos : Nat) : List (PMNode × Nat) :=
  getParentChain doc pos pos

/-- The `setNodeMarkup` steps the tagging walk emits for an ancestor
chain, threading the fresh-tag supply index `k`: each ancestor keeps its
truthy origin tag and otherwise receives the next tag of the supply, in
walk order. -/
def markupSteps (fresh : Nat → Nat) : List (PMNode × Nat) → Nat → List Step
  | [], _ => []
  | a :: rest, k =>
    if jsTruthy (originOf a.1) then
      .markup a.2 (originOf a.1) :: markupSteps fresh rest k
    else
      .markup a.2 (.str (fresh k)) :: markupSteps fresh rest (k + 1)

/-- The per-page body of `PaginationView.update` (second variant): resolve
the overflow position, adjust the split position and depth by one when the
position sits at the start or the end of its parent (throwing when no node
exists there), tag every ancestor of the unadjusted position via
`traverseAncestors`, and emit the transaction tagged `split` carrying the
markup steps followed by the split step. -/
def pvUpdatePage (doc : PMNode) (overflow : Bool) (posAtCoords : Option Nat)
    (fresh : Nat → Nat) : Except String (Option Tr) :=
  if overflow then
    match posAtCoords with
    | none => .error "Cannot find position at coords"
    | some p =>
      let rp := resolvePos doc p
      let spd :=
        if rp.parentOffset = 0 then (p - 1, rp.depth - 1)
        else if rp.parentOffset = contentSizeOf rp.parent then (p + 1, rp.depth + 1)
        else (p, rp.depth)
      match nodeAtPos doc spd.1 with
      | none => .error "could not split at resolved position"
      | some _ =>
        let tagged := tagAncestors doc p (mkTr doc) fresh
        .ok (some ((tagged.1.setMeta "split").splitOp spd.1 spd.2))
  else .ok none

mutual
/-- The second variant's `joinDeep(node, tr, startPos, offset)`: join the
descendants of a node when they are a page or the origin comparison
succeeds, recursing into each joined child.  `prevOrigin` starts as
JavaScript `undefined` and is assigned `node.attrs.origin` — the PARENT's
origin — at the end of every visited iteration, exactly as the source
does. -/
def joinDeepGo : PMNode → Tr → Nat → Nat → Tr
  | .text _, tr, _, _ => tr
  | .node _ og cs, tr, startPos, offset => joinDeepList og cs 0 tr startPos offset JSVal.undef
/-- The `node.forEach` loop of `joinDeep`: `co` is the current child
offset inside the parent's content. -/
def joinDeepList (parentOrigin : JSVal) : List PMNode → Nat → Tr → Nat → Nat → JSVal → Tr
  | [], _, tr, _, _, _ => tr
  | child :: rest, co, tr, startPos, offset, prevOrigin =>
    if startPos ≤ co then
      let position := tr.mapPos (co + offset)
      let tr2 :=
        if canJoin tr.doc position then
          if typeNameOf child == "page" || jsStrictEq prevOrigin parentOrigin then
            joinDeepGo child (tr.joinOp position) 0 (co + offset)
          else tr
        else tr
      joinDeepList parentOrigin rest (co + nodeSize child) tr2 startPos offset parentOrigin
    else joinDeepList parentOrigin rest (co + nodeSize child) tr startPos offset prevOrigin
end

/-- The `state.doc.forEach` loop of the page-removal variant's
`appendTransaction` (src/pagination.ts lines 184–197): at every top-level
boundary after the first page, join at depth 2 when the first child of the
page and the last child of the previous page carry the same non-null
origin, else at depth 1. -/
def joinPagesGo (t : Tr) : List PMNode → Nat → Option PMNode → Tr
  | [], _, _ => t
  | pg :: rest, offset, prevPg =>
    let t2 :=
      if 0 < offset then
        match prevPg with
        | some prev =>
          let origin := ((firstChildOf pg).map originOf).getD .undef
          let lastOrigin := ((lastChildOf prev).map originOf).getD .undef
          let depth := if jsTruthy origin && jsStrictEq origin lastOrigin then 2 else 1
          t.joinDepthOp offset depth
        | none => t
      else t
    joinPagesGo t2 rest (offset + nodeSize pg) (some pg)

/-- The `appendTransaction` of `src/src/pagination.ts`: skip when the
first transaction is the plugin's own split; otherwise build a transaction
tagged `join`.  When the top-level page count decreased, join at the
position just before the selection anchor when legal, and when both
neighbouring nodes at that boundary are non-empty additionally delete the
single position just before the mapped join point.  Otherwise, when any
incoming transaction lacks plugin meta, join consecutive pages. -/
def appendTransactionPR (trs : List Tr) (prevDoc doc : PMNode) (anchor : Nat) : Option Tr :=
  if (trs.headD (mkTr doc)).meta = some "split" then none
  else
    let transaction := (mkTr doc).setMeta "join"
    if childCountOf doc < childCountOf prevDoc then
      let joinPos := anchor - 1
      some
        (if canJoin doc joinPos then
          let rp := resolvePos doc joinPos
          let t := transaction.joinOp joinPos
          match rp.nodeAfter, rp.nodeBefore with
          | some na, some nb =>
            if 0 < contentSizeOf na ∧ 0 < contentSizeOf nb then
              t.replaceDel (t.mapPos joinPos - 1) (t.mapPos joinPos)
            else t
          | _, _ => t
        else transaction)
    else
      if trs.any (fun t => t.meta = none) then
        match doc with
        | .text _ => some transaction
        | .node _ _ pages => some (joinPagesGo transaction pages 0 none)
      else none

/-- Modelled from the spec (section 4.3 step 2), for comparison with the
code's `adjustPos`: walk outward while the position sits at the very start
(offset 0) of its immediate container and that container is not itself a
page; symmetrically walk outward while the position sits at the very end
of a non-page container; the start walk takes precedence, the walk stays
inside the document and stops at a page boundary at the latest. -/
def specWalkGo (doc : PMNode) : Nat → Nat → Nat
  | 0, p => p
  | fuel + 1, p =>
    let rp := resolvePos doc p
    if rp.parentOffset = 0 ∧ typeNameOf rp.parent ≠ "page" ∧ 0 < p then
      specWalkGo doc fuel (p - 1)
    else if rp.parentOffset = contentSizeOf rp.parent ∧ 0 < rp.parentOffset ∧
        typeNameOf rp.parent ≠ "page" ∧ p < contentSizeOf doc then
      specWalkGo doc fuel (p + 1)
    else p

/-- The spec-modelled outward walk on a document. -/
def specWalk (doc : PMNode) (p : Nat) : Nat :=
  specWalkGo doc (nodeSize doc) p



/-- Whether a step is a `setNodeMarkup` step. -/
def Step.isMarkup : Step → Bool
  | .markup _ _ => true
  | _ => false

/-- Example document: one page holding one untagged two-character
paragraph. -/
def docOnePage : PMNode :=
  .node "doc" .undef [.node "page" .undef [.node "paragraph" .null [.text 2]]]

/-- Example document: two pages, each holding one untagged two-character
paragraph. -/
def docTwoPages : PMNode :=
  .node "doc" .undef
    [.node "page" .undef [.node "paragraph" .null [.text 2]],
     .node "page" .undef [.node "paragraph" .null [.text 2]]]

/-- Example document: two pages whose paragraphs carry the distinct origin
tags 1 and 2. -/
def docTaggedPages : PMNode :=
  .node "doc" .undef
    [.node "page" .undef [.node "paragraph" (.str 1) [.text 2]],
     .node "page" .undef [.node "paragraph" (.str 2) [.text 2]]]

/-- Example document: one page holding two untagged paragraphs (the shape
left after a user edit removed a page). -/
def docMergedPages : PMNode :=
  .node "doc" .undef
    [.node "page" .undef
      [.node "paragraph" .null [.text 2], .node "paragraph" .null [.text 2]]]

/-- Example document: the result of splitting `docOnePage` at position 3
with depth 2. -/
def docSplitPages : PMNode :=
  .node "doc" .undef
    [.node "page" .undef [.node "paragraph" .null [.text 1]],
     .node "page" .undef [.node "paragraph" .null [.text 1]]]

/-- A plain user edit on a document: a single untagged `ReplaceStep`
inserting one character at position 2. -/
def userEdit (doc : PMNode) : Tr :=
  { doc := doc, steps := [.replace 2 2 1], meta := none, pointer := false,
    addToHistory := none }

lemma joinOp_meta (t : Tr) (p : Nat) : (t.joinOp p).meta = t.meta := rfl

lemma processConnection_meta (t : Tr) (c : Connection) :
    (processConnection t c).meta = t.meta := by
  unfold processConnection
  dsimp only
  repeat' split
  all_goals rfl

lemma foldl_processConnection_meta (l : List Connection) (t : Tr) :
    (l.foldl processConnection t).meta = t.meta := by
  induction l generalizing t with
  | nil => rfl
  | cons c cs ih => rw [List.foldl_cons, ih, processConnection_meta]

lemma processSplit_meta (t : Tr) (s : Split) : (processSplit t s).meta = t.meta := by
  unfold processSplit
  dsimp only
  split
  · rw [foldl_processConnection_meta, joinOp_meta]
  · rfl

lemma foldl_processSplit_meta (l : List Split) (t : Tr) :
    (l.foldl processSplit t).meta = t.meta := by
  induction l generalizing t with
  | nil => rfl
  | cons s ss ih => rw [List.foldl_cons, ih, processSplit_meta]

/-- C2.  For every previous Pagination State (any list of splits with any
connections), applying an edit tagged "join" to the state-transition
function returns the empty state (no tracked splits). -/
theorem apply_join_resets_state (tr : Tr) (st : PaginationState) (newDoc : PMNode)
    (h : tr.meta = some "join") : applyPag tr st newDoc = ⟨[]⟩ := by
  unfold applyPag
  rw [h]
  simp

/-- Witness for C2 at a concrete input: a tagged join edit on a state
tracking one split with one connection. -/
theorem apply_join_resets_state_witness :
    ({ doc := docTwoPages, steps := [.join 5 1], meta := some "join", pointer := false,
       addToHistory := some false } : Tr).meta = some "join" ∧
    applyPag
      { doc := docTwoPages, steps := [.join 5 1], meta := some "join", pointer := false,
        addToHistory := some false }
      ⟨[⟨5, [⟨4, 6⟩]⟩]⟩ docOnePage = ⟨[]⟩ :=
  ⟨rfl, apply_join_resets_state _ _ _ rfl⟩

/-- C10.  For every edit tagged neither "join" nor "split", the Pagination
State transition preserves the number of tracked splits exactly, each
split surviving with only its position remapped, and never adds a split or
a connection: each resulting split's connection list is a sub-list of the
remapping of that split's previous connection list. -/
theorem apply_untagged_preserves_splits (tr : Tr) (st : PaginationState) (newDoc : PMNode)
    (h1 : tr.meta ≠ some "join") (h2 : tr.meta ≠ some "split") :
    (applyPag tr st newDoc).splits.length = st.splits.length ∧
    List.Forall₂
      (fun snew sold =>
        snew.pos = tr.mapPos sold.pos ∧
        snew.connections.Sublist
          (sold.connections.map fun c => ⟨tr.mapPos c.fromPos, tr.mapPos c.toPos⟩))
      (applyPag tr st newDoc).splits st.splits := by
  have hres : (applyPag tr st newDoc).splits
      = (st.splits.map (remapSplit tr)).map (filterConnections newDoc) := by
    unfold applyPag
    rw [if_neg h1]
    dsimp only
    rw [if_neg h2]
  refine ⟨by rw [hres]; simp, ?_⟩
  rw [hres, List.map_map]
  induction st.splits with
  | nil => exact List.Forall₂.nil
  | cons s ss ih =>
    exact List.Forall₂.cons ⟨rfl, List.filter_sublist _⟩ ih

/-- Witness for C10 at a concrete input: a plain one-step user edit and a
state tracking one split with one connection. -/
theorem apply_untagged_preserves_splits_witness :
    (userEdit docOnePage).meta ≠ some "join" ∧
    (userEdit docOnePage).meta ≠ some "split" ∧
    ((applyPag (userEdit docOnePage) ⟨[⟨3, [⟨2, 4⟩]⟩]⟩ docOnePage).splits.length
        = (PaginationState.mk [⟨3, [⟨2, 4⟩]⟩]).splits.length ∧
      List.Forall₂
        (fun snew sold =>
          snew.pos = (userEdit docOnePage).mapPos sold.pos ∧
          snew.connections.Sublist
            (sold.connections.map fun c =>
              ⟨(userEdit docOnePage).mapPos c.fromPos, (userEdit docOnePage).mapPos c.toPos⟩))
        (applyPag (userEdit docOnePage) ⟨[⟨3, [⟨2, 4⟩]⟩]⟩ docOnePage).splits
        (PaginationState.mk [⟨3, [⟨2, 4⟩]⟩]).splits) :=
  ⟨by decide, by decide,
    apply_untagged_preserves_splits (userEdit docOnePage) ⟨[⟨3, [⟨2, 4⟩]⟩]⟩ docOnePage
      (by decide) (by decide)⟩

lemma splitConnsGo_eq_filterMap (newDoc : PMNode) (sp : Nat) :
    ∀ (rem i : Nat),
      splitConnsGo newDoc sp i rem =
        (List.range' i rem).filterMap fun j =>
          match (resolvePos newDoc (sp + j)).nodeAfter with
          | some n => if isTextNode n then none else some ⟨sp - j, sp + j⟩
          | none => none := by
  intro rem
  induction rem with
  | zero => intro i; rfl
  | succ r ih =>
    intro i
    rw [List.range'_succ, List.filterMap_cons]
    cases hna : (resolvePos newDoc (sp + i)).nodeAfter with
    | none => simp only [splitConnsGo, hna, ih, List.nil_append]
    | some n =>
      cases hn : isTextNode n <;>
        simp only [splitConnsGo, hna, hn, ih, if_true, if_false, List.nil_append,
          List.singleton_append, Bool.false_eq_true, List.cons_append]

/-- C8.  When the state-transition function processes an edit tagged
"split", it recovers the boundary position and nesting depth from the
edit's single structural step (the split position is the mapped step
position minus its resolved depth) and appends exactly one new `Split`
whose connection list contains one `Connection` per ancestor level from
depth 1 up to the total split depth whose post-split neighbouring node
exists and is not a text node; text-level adjacency contributes no
connection. -/
theorem apply_split_records_connections (tr : Tr) (st : PaginationState) (newDoc : PMNode)
    (step : Step) (rest : List Step)
    (hm : tr.meta = some "split") (hs : tr.steps = step :: rest) :
    (applyPag tr st newDoc).splits =
      (st.splits.map (remapSplit tr)).map (filterConnections newDoc) ++
        [{ pos := tr.mapPos step.fromPos - (resolvePos newDoc (tr.mapPos step.fromPos)).depth,
           connections :=
             (List.range' 1 (resolvePos newDoc (tr.mapPos step.fromPos)).depth).filterMap
               fun j =>
                 match (resolvePos newDoc
                     (tr.mapPos step.fromPos
                       - (resolvePos newDoc (tr.mapPos step.fromPos)).depth + j)).nodeAfter with
                 | some n =>
                   if isTextNode n then none
                   else
                     some ⟨tr.mapPos step.fromPos
                             - (resolvePos newDoc (tr.mapPos step.fromPos)).depth - j,
                           tr.mapPos step.fromPos
                             - (resolvePos newDoc (tr.mapPos step.fromPos)).depth + j⟩
                 | none => none }] := by
  have hj : tr.meta ≠ some "join" := by rw [hm]; simp
  unfold applyPag
  rw [if_neg hj]
  dsimp only
  rw [if_pos hm, hs]
  dsimp only
  rw [show ∀ sp d, splitConnections newDoc sp d
        = (List.range' 1 d).filterMap fun j =>
            match (resolvePos newDoc (sp + j)).nodeAfter with
            | some n => if isTextNode n then none else some ⟨sp - j, sp + j⟩
            | none => none
      from fun sp d => splitConnsGo_eq_filterMap newDoc sp d 1]

/-- Witness for C8 at a concrete input: applying the tagged split edit
`split(3, 2)` of `docOnePage` with the post-split document
`docSplitPages` appends the split at the page boundary 5 with a single
paragraph-level connection `{from: 4, to: 6}` (the text level contributes
none). -/
theorem apply_split_records_connections_witness :
    ({ doc := docOnePage, steps := [.split 3 2], meta := some "split", pointer := false,
       addToHistory := some false } : Tr).meta = some "split" ∧
    ({ doc := docOnePage, steps := [.split 3 2], meta := some "split", pointer := false,
       addToHistory := some false } : Tr).steps = Step.split 3 2 :: [] ∧
    (applyPag
        { doc := docOnePage, steps := [.split 3 2], meta := some "split", pointer := false,
          addToHistory := some false }
        ⟨[]⟩ docSplitPages).splits
      = [{ pos := 5, connections := [⟨4, 6⟩] }] :=
  ⟨rfl, rfl, by
    have h := apply_split_records_connections
      { doc := docOnePage, steps := [.split 3 2], meta := some "split", pointer := false,
        addToHistory := some false }
      ⟨[]⟩ docSplitPages (.split 3 2) [] rfl rfl
    simpa using h⟩

lemma replaceStepsOf_singleton (t : Tr) :
    replaceStepsOf [t] = t.steps.filter Step.isReplace := by
  unfold replaceStepsOf
  simp

/-- C1.  Running the Join Reconciler twice on the same incoming edit is
idempotent: the reconciliation of an untagged edit while splits are
tracked emits a transaction tagged "join"; applying the state transition
to that transaction empties the Pagination State; and a second
reconciliation pass over the same edit with the emptied state finds no
tracked splits and emits no join edit (a transaction with no steps and no
"join" tag). -/
theorem join_reconciler_idempotent (tr0 : Tr) (doc doc2 newDoc : PMNode)
    (st st2 : PaginationState)
    (hmeta : tr0.meta = none) (hptr : tr0.pointer = false)
    (hstep : tr0.steps.filter Step.isReplace ≠ [])
    (hsplits : st.splits ≠ []) :
    ∃ t, appendTransactionMain [tr0] doc st = some t ∧
      t.meta = some "join" ∧
      applyPag t st2 newDoc = ⟨[]⟩ ∧
      appendTransactionMain [tr0] doc2 ⟨[]⟩ = some (mkTr doc2) ∧
      (mkTr doc2).steps = [] ∧ (mkTr doc2).meta ≠ some "join" := by
  have hguard : (tr0.meta.isSome || tr0.pointer) = false := by
    rw [hmeta, hptr]
    rfl
  have hempty : (replaceStepsOf [tr0]).isEmpty = false := by
    rw [replaceStepsOf_singleton]
    cases hW : tr0.steps.filter Step.isReplace with
    | nil => exact absurd hW hstep
    | cons a l => rfl
  have hlen : st.splits.length ≠ 0 := fun h => hsplits (List.length_eq_zero.mp h)
  have h1 : appendTransactionMain [tr0] doc st
      = some (st.splits.foldl processSplit ((mkTr doc).setMeta "join").setNoHistory) := by
    show (if tr0.meta.isSome || tr0.pointer then none
          else appendTransactionRest [tr0] doc st) = _
    rw [hguard]
    simp only [Bool.false_eq_true, if_false]
    unfold appendTransactionRest
    rw [hempty]
    simp only [Bool.false_eq_true, if_false]
    rw [if_pos hlen]
  have hm : (st.splits.foldl processSplit ((mkTr doc).setMeta "join").setNoHistory).meta
      = some "join" := by
    rw [foldl_processSplit_meta]
    rfl
  refine ⟨_, h1, hm, ?_, ?_, rfl, by simp [mkTr]⟩
  · unfold applyPag
    rw [if_pos hm]
  · show (if tr0.meta.isSome || tr0.pointer then none
          else appendTransactionRest [tr0] doc2 ⟨[]⟩) = some (mkTr doc2)
    rw [hguard]
    simp only [Bool.false_eq_true, if_false]
    unfold appendTransactionRest
    rw [hempty]
    simp only [Bool.false_eq_true, if_false]
    rw [if_neg (by simp)]
    rfl

/-- Witness for C1 at a concrete input: a one-step user edit on the split
two-page document while the state tracks the engine's split at position 5.
The emitted transaction is tagged "join", applying it resets the state,
and the second pass emits the step-free untagged transaction. -/
theorem join_reconciler_idempotent_witness :
    (userEdit docSplitPages).meta = none ∧
    (userEdit docSplitPages).pointer = false ∧
    (userEdit docSplitPages).steps.filter Step.isReplace ≠ [] ∧
    (PaginationState.mk [⟨5, [⟨4, 6⟩]⟩]).splits ≠ [] ∧
    (∃ t, appendTransactionMain [userEdit docSplitPages] docSplitPages ⟨[⟨5, [⟨4, 6⟩]⟩]⟩
        = some t ∧
      t.meta = some "join" ∧
      applyPag t ⟨[⟨5, [⟨4, 6⟩]⟩]⟩ docOnePage = ⟨[]⟩ ∧
      appendTransactionMain [userEdit docSplitPages] docOnePage ⟨[]⟩ = some (mkTr docOnePage) ∧
      (mkTr docOnePage).steps = [] ∧ (mkTr docOnePage).meta ≠ some "join") :=
  ⟨rfl, rfl, by decide, by decide,
    join_reconciler_idempotent (userEdit docSplitPages) docSplitPages docOnePage docOnePage
      ⟨[⟨5, [⟨4, 6⟩]⟩]⟩ ⟨[⟨5, [⟨4, 6⟩]⟩]⟩ rfl rfl (by decide) (by decide)⟩

/-- Counterexample to C3 as stated.  With one tracked split at position 3
of `docOnePage` — a mid-text position that is not a legal join point — an
untagged one-step user edit makes the reconciler emit a transaction with
NO steps (the split is left unjoined) but tagged "join"; applying the
state transition to that transaction yields the empty state, so the
tracked split does NOT remain in the Pagination State after the pass: it
is discarded, not retried. -/
theorem unjoinable_split_discarded_counterexample :
    canJoin docOnePage 3 = false ∧
    appendTransactionMain [userEdit docOnePage] docOnePage ⟨[⟨3, []⟩]⟩
      = some { doc := docOnePage, steps := [], meta := some "join", pointer := false,
               addToHistory := some false } ∧
    applyPag
      { doc := docOnePage, steps := [], meta := some "join", pointer := false,
        addToHistory := some false }
      ⟨[⟨3, []⟩]⟩ docOnePage = ⟨[]⟩ ∧
    (⟨3, []⟩ : Split) ∉
      (applyPag
        { doc := docOnePage, steps := [], meta := some "join", pointer := false,
          addToHistory := some false }
        ⟨[⟨3, []⟩]⟩ docOnePage).splits :=
  ⟨rfl, rfl, rfl, by decide⟩

/-- C3 amended.  When the single tracked split's position is not a legal
join point, the engine leaves it unjoined — the compensating transaction
carries no step for it — but because that transaction is tagged "join"
whenever any split is tracked, the following state transition resets the
Pagination State to empty: the unjoined split is discarded by the pass
rather than kept for a retry. -/
theorem unjoinable_split_left_unjoined_but_reset (tr0 : Tr) (doc newDoc : PMNode)
    (p : Nat) (cs : List Connection) (st2 : PaginationState)
    (hmeta : tr0.meta = none) (hptr : tr0.pointer = false)
    (hstep : tr0.steps.filter Step.isReplace ≠ [])
    (hnj : canJoin doc p = false) :
    ∃ t, appendTransactionMain [tr0] doc ⟨[⟨p, cs⟩]⟩ = some t ∧
      t.steps = [] ∧ t.meta = some "join" ∧
      applyPag t st2 newDoc = ⟨[]⟩ := by
  have hguard : (tr0.meta.isSome || tr0.pointer) = false := by
    rw [hmeta, hptr]
    rfl
  have hempty : (replaceStepsOf [tr0]).isEmpty = false := by
    rw [replaceStepsOf_singleton]
    cases hW : tr0.steps.filter Step.isReplace with
    | nil => exact absurd hW hstep
    | cons a l => rfl
  have h1 : appendTransactionMain [tr0] doc ⟨[⟨p, cs⟩]⟩
      = some (([⟨p, cs⟩] : List Split).foldl processSplit
          ((mkTr doc).setMeta "join").setNoHistory) := by
    show (if tr0.meta.isSome || tr0.pointer then none
          else appendTransactionRest [tr0] doc ⟨[⟨p, cs⟩]⟩) = _
    rw [hguard]
    simp only [Bool.false_eq_true, if_false]
    unfold appendTransactionRest
    rw [hempty]
    simp only [Bool.false_eq_true, if_false]
    rw [if_pos (by simp)]
  have hps : ([⟨p, cs⟩] : List Split).foldl processSplit
        ((mkTr doc).setMeta "join").setNoHistory
      = ((mkTr doc).setMeta "join").setNoHistory := by
    rw [List.foldl_cons, List.foldl_nil]
    simp [processSplit, Tr.setMeta, Tr.setNoHistory, mkTr, Tr.mapPos, hnj]
  rw [hps] at h1
  refine ⟨_, h1, rfl, rfl, ?_⟩
  unfold applyPag
  have hjm : (((mkTr doc).setMeta "join").setNoHistory).meta = some "join" := rfl
  rw [if_pos hjm]

/-- Witness for the amended C3 at a concrete input: the unjoinable
tracked split at position 3 of `docOnePage`. -/
theorem unjoinable_split_left_unjoined_but_reset_witness :
    (userEdit docOnePage).meta = none ∧
    (userEdit docOnePage).pointer = false ∧
    (userEdit docOnePage).steps.filter Step.isReplace ≠ [] ∧
    canJoin docOnePage 3 = false ∧
    (∃ t, appendTransactionMain [userEdit docOnePage] docOnePage ⟨[⟨3, []⟩]⟩ = some t ∧
      t.steps = [] ∧ t.meta = some "join" ∧
      applyPag t ⟨[]⟩ docOnePage = ⟨[]⟩) :=
  ⟨rfl, rfl, by decide, by decide,
    unjoinable_split_left_unjoined_but_reset (userEdit docOnePage) docOnePage docOnePage
      3 [] ⟨[]⟩ rfl rfl (by decide) (by decide)⟩

/-- C4 (code bug).  When the coordinate-to-position query returns no
resolvable position for an overflowing page container, the first
variant's `update` does not skip the container: it throws, aborting the
whole per-page loop, so a later overflowing container with a perfectly
resolvable position is never processed.  The second conjunct shows the
same container list without the unresolvable entry is processed
normally. -/
theorem overflow_scanner_throws_on_unresolvable :
    updateAll docOnePage [(true, none), (true, some 3)]
      = .error "Cannot find position at coords" ∧
    updateAll docOnePage [(true, some 3)]
      = .ok [((mkTr docOnePage).setMeta "split").setNoHistory.splitOp 3 2] :=
  ⟨rfl, rfl⟩

/-- C5 (code bug).  `joinDeep` run on `docTaggedPages` (two pages whose
paragraphs carry the distinct origin tags 1 and 2) joins the two pages —
allowed — and then also joins the two paragraphs even though their origin
tags differ and they are not pages: the loop compares `prevOrigin`,
assigned from the PARENT's `attrs.origin`, against that same parent
origin (`undefined === undefined` on a page parent), instead of comparing
the children's tags as its own doc comment states.  The first two
conjuncts exhibit the mismatched neighbours at the joined boundary; the
last two show the emitted second join step and the merged paragraph. -/
theorem joinDeep_joins_mismatched_origins :
    (resolvePos (joinAt docTaggedPages 6) 5).nodeBefore
      = some (.node "paragraph" (.str 1) [.text 2]) ∧
    (resolvePos (joinAt docTaggedPages 6) 5).nodeAfter
      = some (.node "paragraph" (.str 2) [.text 2]) ∧
    (joinDeepGo docTaggedPages (mkTr docTaggedPages) 6 0).steps
      = [.join 6 1, .join 5 1] ∧
    (joinDeepGo docTaggedPages (mkTr docTaggedPages) 6 0).doc
      = .node "doc" .undef [.node "page" .undef [.node "paragraph" (.str 1) [.text 4]]] :=
  ⟨rfl, rfl, rfl, rfl⟩

/-- Counterexample to C6 as stated.  The first variant's splitter emits a
split edit for `docOnePage` — whose paragraph ancestor carries no origin
tag (`null`) — containing only the split step and no `setNodeMarkup`
step: no ancestor is assigned an origin tag before this split edit. -/
theorem splitter_emits_untagged_split_counterexample :
    originOf (resolvePos docOnePage 3).parent = .null ∧
    updatePage docOnePage true (some 3)
      = .ok (some { doc := docOnePage, steps := [.split 3 2], meta := some "split",
                    pointer := false, addToHistory := some false }) ∧
    [Step.split 3 2].filter Step.isMarkup = [] :=
  ⟨rfl, rfl, rfl⟩

lemma getParent_pos_node (doc : PMNode) (pos : Nat) (pnode : PMNode) (ppos : Nat)
    (h : getParent doc pos = some (pnode, ppos)) (hp : 0 < ppos) :
    nodeAtPos doc ppos = some pnode := by
  unfold getParent at h
  by_cases h0 : 0 < pos - (resolvePos doc pos).parentOffset - 1
  · rw [if_pos h0] at h
    cases hna : nodeAtPos doc (pos - (resolvePos doc pos).parentOffset - 1) with
    | none => rw [hna] at h; exact absurd h (by simp)
    | some n =>
      rw [hna] at h
      simp only [Option.some.injEq, Prod.mk.injEq] at h
      rw [← h.2, hna, h.1]
  · rw [if_neg h0] at h
    simp only [Option.some.injEq, Prod.mk.injEq] at h
    rw [← h.2] at hp
    exact absurd hp (by simp)

lemma tagAncestorsGo_steps (doc : PMNode) (fresh : Nat → Nat) :
    ∀ (fuel pos : Nat) (tr : Tr) (k : Nat),
      (tagAncestorsGo doc fresh fuel pos tr k).1.steps
        = tr.steps ++ markupSteps fresh (getParentChain doc fuel pos) k := by
  intro fuel
  induction fuel with
  | zero => intro pos tr k; simp [tagAncestorsGo, getParentChain, markupSteps]
  | succ f ih =>
    intro pos tr k
    cases hgp : getParent doc pos with
    | none => simp [tagAncestorsGo, getParentChain, hgp, markupSteps]
    | some pp =>
      obtain ⟨pnode, ppos⟩ := pp
      by_cases hp : 0 < ppos
      · by_cases htruthy : jsTruthy (originOf pnode) = true
        · rw [show tagAncestorsGo doc fresh (f + 1) pos tr k
              = tagAncestorsGo doc fresh f ppos (tr.markupOp ppos (originOf pnode)) k by
                simp [tagAncestorsGo, hgp, hp, htruthy],
            ih ppos (tr.markupOp ppos (originOf pnode)) k]
          simp [getParentChain, hgp, hp, markupSteps, htruthy, Tr.markupOp]
        · rw [show tagAncestorsGo doc fresh (f + 1) pos tr k
              = tagAncestorsGo doc fresh f ppos (tr.markupOp ppos (.str (fresh k))) (k + 1) by
                simp [tagAncestorsGo, hgp, hp, htruthy],
            ih ppos (tr.markupOp ppos (.str (fresh k))) (k + 1)]
          simp [getParentChain, hgp, hp, markupSteps, htruthy, Tr.markupOp]
      · simp [tagAncestorsGo, getParentChain, hgp, hp, markupSteps]

lemma getParentChain_mem (doc : PMNode) :
    ∀ (fuel pos : Nat) (a : PMNode × Nat), a ∈ getParentChain doc fuel pos →
      0 < a.2 ∧ nodeAtPos doc a.2 = some a.1 := by
  intro fuel
  induction fuel with
  | zero => intro pos a ha; simp [getParentChain] at ha
  | succ f ih =>
    intro pos a ha
    rw [getParentChain] at ha
    cases hgp : getParent doc pos with
    | none => rw [hgp] at ha; simp at ha
    | some pp =>
      rw [hgp] at ha
      dsimp only at ha
      by_cases hp : 0 < pp.2
      · rw [if_pos hp] at ha
        rcases List.mem_cons.mp ha with rfl | htl
        · exact ⟨hp, getParent_pos_node doc pos a.1 a.2 (by rw [hgp]) hp⟩
        · exact ih pp.2 a htl
      · rw [if_neg hp] at ha
        simp at ha

lemma markupSteps_mem (fresh : Nat → Nat) :
    ∀ (chain : List (PMNode × Nat)) (k : Nat) (a : PMNode × Nat), a ∈ chain →
      ∃ v, Step.markup a.2 v ∈ markupSteps fresh chain k ∧
        (jsTruthy (originOf a.1) = true → v = originOf a.1) := by
  intro chain
  induction chain with
  | nil => intro k a ha; simp at ha
  | cons b rest ih =>
    intro k a ha
    rcases List.mem_cons.mp ha with rfl | htl
    · by_cases ht : jsTruthy (originOf a.1) = true
      · exact ⟨originOf a.1, by simp [markupSteps, ht], fun _ => rfl⟩
      · exact ⟨.str (fresh k), by simp [markupSteps, ht], fun hc => absurd hc ht⟩
    · by_cases ht : jsTruthy (originOf b.1) = true
      · obtain ⟨v, hv, himp⟩ := ih k a htl
        refine ⟨v, ?_, himp⟩
        simp only [markupSteps, ht, if_true]
        exact List.mem_cons_of_mem _ hv
      · obtain ⟨v, hv, himp⟩ := ih (k + 1) a htl
        refine ⟨v, ?_, himp⟩
        simp only [markupSteps, ht, Bool.false_eq_true, if_false]
        exact List.mem_cons_of_mem _ hv

/-- C6 amended.  It is the `PaginationView` variant's splitter that tags
ancestors: every split edit it emits consists of exactly the
`setNodeMarkup` steps for the ancestor chain of the resolved overflow
position — one step per ancestor at a positive position, innermost
first, keeping the ancestor's existing truthy origin tag and otherwise
assigning the next tag of the fresh supply in walk order, starting at
supply index 0 — followed by the single split step, the whole edit
tagged "split".  In particular every ancestor of the chain, which really
is the node at its chain position, receives a markup step at that
position preserving its truthy tag.  The primary plugin's splitter
(first variant `update`) emits split edits containing only the split
step, assigning no origin tag at all. -/
theorem pagination_view_splitter_tags_ancestors (doc : PMNode) (p : Nat)
    (fresh : Nat → Nat) (t : Tr)
    (h : pvUpdatePage doc true (some p) fresh = .ok (some t)) :
    t.meta = some "split" ∧
    (∃ sp sd, t.steps = markupSteps fresh (ancestorChain doc p) 0 ++ [.split sp sd]) ∧
    (∀ a ∈ ancestorChain doc p,
      0 < a.2 ∧ nodeAtPos doc a.2 = some a.1 ∧
      ∃ v, Step.markup a.2 v ∈ t.steps ∧
        (jsTruthy (originOf a.1) = true → v = originOf a.1)) ∧
    (∀ (doc2 : PMNode) (p2 : Nat) (t2 : Tr),
      updatePage doc2 true (some p2) = .ok (some t2) →
      ∃ sp2 sd2, t2.steps = [.split sp2 sd2]) := by
  unfold pvUpdatePage at h
  rw [if_pos rfl] at h
  dsimp only at h
  generalize hspd :
    (if (resolvePos doc p).parentOffset = 0 then (p - 1, (resolvePos doc p).depth - 1)
     else if (resolvePos doc p).parentOffset = contentSizeOf (resolvePos doc p).parent then
       (p + 1, (resolvePos doc p).depth + 1)
     else (p, (resolvePos doc p).depth)) = spd at h
  cases hna : nodeAtPos doc spd.1 with
  | none => rw [hna] at h; exact absurd h (by simp)
  | some n =>
    rw [hna] at h
    simp only [Except.ok.injEq, Option.some.injEq] at h
    have hsteq : t.steps = markupSteps fresh (ancestorChain doc p) 0 ++ [.split spd.1 spd.2] := by
      rw [← h]
      show ((tagAncestors doc p (mkTr doc) fresh).1.setMeta "split").steps
          ++ [Step.split spd.1 spd.2] = _
      have h2 : ((tagAncestors doc p (mkTr doc) fresh).1.setMeta "split").steps
          = markupSteps fresh (ancestorChain doc p) 0 := by
        show (tagAncestors doc p (mkTr doc) fresh).1.steps = _
        unfold tagAncestors ancestorChain
        rw [tagAncestorsGo_steps]
        rfl
      rw [h2]
    refine ⟨by rw [← h]; rfl, ⟨spd.1, spd.2, hsteq⟩, ?_, ?_⟩
    · intro a ha
      obtain ⟨hpos, hnode⟩ := getParentChain_mem doc p p a ha
      obtain ⟨v, hv, himp⟩ := markupSteps_mem fresh (ancestorChain doc p) 0 a ha
      refine ⟨hpos, hnode, v, ?_, himp⟩
      rw [hsteq]
      exact List.mem_append_left _ hv
    · intro doc2 p2 t2 h2
      unfold updatePage at h2
      rw [if_pos rfl] at h2
      dsimp only at h2
      by_cases hcs : canSplit doc2 (adjustPos doc2 p2) (resolvePos doc2 (adjustPos doc2 p2)).depth = true
      · rw [if_pos hcs] at h2
        simp only [Except.ok.injEq, Option.some.injEq] at h2
        exact ⟨adjustPos doc2 p2, (resolvePos doc2 (adjustPos doc2 p2)).depth, by rw [← h2]; rfl⟩
      · rw [if_neg hcs] at h2
        exact absurd h2 (by simp)

/-- Witness for the amended C6 at a concrete input: on `docOnePage` the
ancestor chain of position 3 is exactly the untagged paragraph at
position 1, its markup steps are exactly the assignment of the first
supply tag, and the `PaginationView` splitter emits that markup step
followed by the `split(3, 2)` step. -/
theorem pagination_view_splitter_tags_ancestors_witness :
    pvUpdatePage docOnePage true (some 3) (fun k => 100 + k)
      = .ok (some { doc := setOriginAt docOnePage 1 (.str 100),
                    steps := [.markup 1 (.str 100), .split 3 2],
                    meta := some "split", pointer := false, addToHistory := none }) ∧
    ancestorChain docOnePage 3 = [(.node "paragraph" .null [.text 2], 1)] ∧
    markupSteps (fun k => 100 + k) (ancestorChain docOnePage 3) 0
      = [.markup 1 (.str 100)] ∧
    ({ doc := setOriginAt docOnePage 1 (.str 100),
       steps := [.markup 1 (.str 100), .split 3 2],
       meta := some "split", pointer := false, addToHistory := none } : Tr).meta
      = some "split" ∧
    (∃ sp sd,
      ({ doc := setOriginAt docOnePage 1 (.str 100),
         steps := [.markup 1 (.str 100), .split 3 2],
         meta := some "split", pointer := false, addToHistory := none } : Tr).steps
        = markupSteps (fun k => 100 + k) (ancestorChain docOnePage 3) 0
          ++ [.split sp sd]) ∧
    (∀ a ∈ ancestorChain docOnePage 3,
      0 < a.2 ∧ nodeAtPos docOnePage a.2 = some a.1 ∧
      ∃ v, Step.markup a.2 v ∈
        ({ doc := setOriginAt docOnePage 1 (.str 100),
           steps := [.markup 1 (.str 100), .split 3 2],
           meta := some "split", pointer := false, addToHistory := none } : Tr).steps ∧
        (jsTruthy (originOf a.1) = true → v = originOf a.1)) :=
  ⟨rfl, rfl, rfl,
    (pagination_view_splitter_tags_ancestors docOnePage 3 (fun k => 100 + k) _ rfl).1,
    (pagination_view_splitter_tags_ancestors docOnePage 3 (fun k => 100 + k) _ rfl).2.1,
    (pagination_view_splitter_tags_ancestors docOnePage 3 (fun k => 100 + k) _ rfl).2.2.1⟩

/-- Counterexample to C7 as stated.  At position 7 of `docTwoPages` — the
very start of the second page's content, so the immediate container IS a
page — the spec's walk does not move (the container is a page), but the
code's adjustment has no page guard and moves the position to 6, the
boundary between the pages at depth 0, outside any page: the adjustment
and the spec's outward walk disagree, and the code's result has crossed a
page boundary. -/
theorem adjustment_ignores_page_guard_counterexample :
    (resolvePos docTwoPages 7).parentOffset = 0 ∧
    typeNameOf (resolvePos docTwoPages 7).parent = "page" ∧
    adjustPos docTwoPages 7 = 6 ∧
    specWalk docTwoPages 7 = 7 ∧
    adjustPos docTwoPages 7 ≠ specWalk docTwoPages 7 ∧
    (resolvePos docTwoPages 6).depth = 0 :=
  ⟨rfl, rfl, rfl, rfl, by decide, rfl⟩

/-- C7 amended.  The Splitter's empty-node avoidance is a single
unconditional adjustment step, not an iterated walk, and it carries no
page check: when the resolved position sits at offset 0 of its immediate
container the position moves one step out — even when the container is
a page, and even when the container is empty so that the end condition
holds as well (the two adjustments are mutually exclusive, the start
case taking precedence) — else when it sits at the very end of its
container it moves one step out the other way, else it is unchanged; the
result never differs from the input by more than one position. -/
theorem splitter_adjustment_single_step (doc : PMNode) (p : Nat) :
    (p - 1 ≤ adjustPos doc p ∧ adjustPos doc p ≤ p + 1) ∧
    ((resolvePos doc p).parentOffset = 0 → adjustPos doc p = p - 1) ∧
    ((resolvePos doc p).parentOffset ≠ 0 →
      (resolvePos doc p).parentOffset = contentSizeOf (resolvePos doc p).parent →
      adjustPos doc p = p + 1) ∧
    ((resolvePos doc p).parentOffset ≠ 0 →
      (resolvePos doc p).parentOffset ≠ contentSizeOf (resolvePos doc p).parent →
      adjustPos doc p = p) := by
  unfold adjustPos
  refine ⟨?_, fun h0 => by rw [if_pos h0], fun h0 he => by rw [if_neg h0, if_pos he],
    fun h0 he => by rw [if_neg h0, if_neg he]⟩
  by_cases h0 : (resolvePos doc p).parentOffset = 0
  · rw [if_pos h0]
    omega
  · rw [if_neg h0]
    by_cases he : (resolvePos doc p).parentOffset = contentSizeOf (resolvePos doc p).parent
    · rw [if_pos he]
      omega
    · rw [if_neg he]
      omega

/-- Witness for the amended C7 at a concrete input: position 2 of
`docOnePage` sits at offset 0 of its paragraph and the adjustment steps
out to position 1. -/
theorem splitter_adjustment_single_step_witness :
    (resolvePos docOnePage 2).parentOffset = 0 ∧ adjustPos docOnePage 2 = 2 - 1 :=
  ⟨rfl, (splitter_adjustment_single_step docOnePage 2).2.1 rfl⟩

lemma canJoin_zero (doc : PMNode) : canJoin doc 0 = false := by
  cases doc with
  | text len => rfl
  | node ty og cs =>
    cases cs with
    | nil => rfl
    | cons c rest => rfl

lemma canJoin_some (doc : PMNode) (p : Nat) (h : canJoin doc p = true) :
    ∃ tb ob cb ta oa ca,
      (resolvePos doc p).nodeBefore = some (.node tb ob cb) ∧
      (resolvePos doc p).nodeAfter = some (.node ta oa ca) := by
  unfold canJoin at h
  dsimp only at h
  cases hb : (resolvePos doc p).nodeBefore with
  | none => rw [hb] at h; exact absurd h (by simp)
  | some b =>
    cases b with
    | text len => rw [hb] at h; exact absurd h (by simp)
    | node tb ob cb =>
      cases ha : (resolvePos doc p).nodeAfter with
      | none => rw [hb, ha] at h; exact absurd h (by simp)
      | some a =>
        cases a with
        | text len2 => rw [hb, ha] at h; exact absurd h (by simp)
        | node ta oa ca => exact ⟨tb, ob, cb, ta, oa, ca, rfl, rfl⟩

/-- C9.  When an incoming edit reduces the top-level page count, the
page-removal reconciler resolves the position just before the current
selection anchor; when a join is structurally legal there it performs it,
and when both neighbouring nodes at that boundary are non-empty after the
edit it additionally deletes the single position just before the mapped
join point (the boundary character); all of this is emitted as one
compensating edit tagged "join". -/
theorem page_removal_joins_and_deletes_boundary (tr0 : Tr) (prevDoc doc : PMNode)
    (anchor : Nat)
    (h0 : tr0.meta ≠ some "split")
    (hcount : childCountOf doc < childCountOf prevDoc)
    (hjoin : canJoin doc (anchor - 1) = true)
    (hna : 0 < contentSizeOf (((resolvePos doc (anchor - 1)).nodeAfter).getD (.text 0)))
    (hnb : 0 < contentSizeOf (((resolvePos doc (anchor - 1)).nodeBefore).getD (.text 0))) :
    ∃ t, appendTransactionPR [tr0] prevDoc doc anchor = some t ∧
      t.meta = some "join" ∧
      t.steps = [.join (anchor - 1) 1, .replace (anchor - 3) (anchor - 2) 0] := by
  obtain ⟨tb, ob, cb, ta, oa, ca, hb, ha⟩ := canJoin_some doc (anchor - 1) hjoin
  rw [ha] at hna
  rw [hb] at hnb
  simp only [Option.getD_some] at hna hnb
  have hmap : Tr.mapPos (((mkTr doc).setMeta "join").joinOp (anchor - 1)) (anchor - 1)
      = anchor - 2 := by
    show mapThrough ⟨anchor - 1 - 1, 2, 0⟩ (anchor - 1) = anchor - 2
    unfold mapThrough
    dsimp only
    split_ifs <;> omega
  unfold appendTransactionPR
  rw [if_neg (by simpa using h0)]
  dsimp only
  rw [if_pos hcount, if_pos hjoin, ha, hb]
  dsimp only
  rw [if_pos ⟨hna, hnb⟩, hmap]
  exact ⟨_, rfl, rfl, rfl⟩

/-- Witness for C9 at a concrete input: the previous document had two
pages, the user edit left the merged single-page document
`docMergedPages`, and the selection anchor is 6, so the boundary between
the two non-empty paragraphs at position 5 is joined and the character at
position 3 of the joined document is removed, in one edit tagged
"join". -/
theorem page_removal_joins_and_deletes_boundary_witness :
    (userEdit docMergedPages).meta ≠ some "split" ∧
    childCountOf docMergedPages < childCountOf docTwoPages ∧
    canJoin docMergedPages 5 = true ∧
    (∃ t, appendTransactionPR [userEdit docMergedPages] docTwoPages docMergedPages 6
        = some t ∧
      t.meta = some "join" ∧
      t.steps = [.join 5 1, .replace 3 4 0]) :=
  ⟨by decide, by decide, by decide,
    page_removal_joins_and_deletes_boundary (userEdit docMergedPages) docTwoPages
      docMergedPages 6 (by decide) (by decide) (by decide) (by decide) (by decide)⟩
